import Mathlib

/-!
Verification of the PDF-AI-Summary application core (`src/app.py`, `src/sql.py`).

The Python source is shallowly embedded: pure helpers (`chunk_text`,
`ai_summary`, `highlight`, the display filter, the analytics metrics) become
Lean functions over `List Char` / `String`; the sqlite `documents` table with
its `filehash TEXT UNIQUE` constraint becomes an explicit database state with
an insert operation returning `Except`; the Streamlit upload loop becomes a
recursive batch processor instrumented with call counters for the external
text-extraction and summarization capabilities (pypdf and the transformers
pipeline are external collaborators, passed in as function parameters, with
extraction allowed to fail as `PdfReader` can raise on non-PDF bytes);
`hashlib.sha256(...).hexdigest()` is embedded as an executable SHA-256 over
byte lists; the TinyDB user store becomes a list of username/password records.
-/

namespace PDFVault

/-! ### Chunker (`chunk_text`, app.py lines 51-52)

Python: `return [text[i:i+max_chars] for i in range(0, len(text), max_chars)]`.
Text is modelled as `List Char`; `range(0, len(text), max_chars)` is
`List.range' 0 ⌈len/max_chars⌉ max_chars` (for `max_chars > 0` the Python
range has exactly ⌈len/max_chars⌉ elements; Python raises on step 0, a case
never exercised since the sole call site uses the default `max_chars = 2000`),
and the slice `text[i:i+max_chars]` is `(text.drop i).take max_chars`. -/

def chunk_text (text : List Char) (max_chars : Nat := 2000) : List (List Char) :=
  (List.range' 0 ((text.length + max_chars - 1) / max_chars) max_chars).map
    (fun i => (text.drop i).take max_chars)

/-! ### Summarization Orchestrator (`ai_summary`, app.py lines 54-65)

The external summarizer (`transformers` pipeline) is a parameter
`summarize : List Char → List Char`.  The Python loop
`for c in chunks[:5]: summaries.append(...)` is a left fold over
`chunks.take 5`, and `" ".join(summaries)` is intercalation with a single
space. -/

def joinSpace (l : List (List Char)) : List Char :=
  List.intercalate [' '] l

def ai_summary (summarize : List Char → List Char) (text : List Char) :
    List (List Char) × List Char :=
  let chunks := chunk_text text
  let summaries := (chunks.take 5).foldl (fun acc c => acc ++ [summarize c]) []
  (summaries, joinSpace summaries)

/-- Number of invocations of the external summarizer made by `ai_summary`:
one per loop iteration, i.e. the length of the accumulated list. -/
def ai_summary_calls (summarize : List Char → List Char) (text : List Char) : Nat :=
  (ai_summary summarize text).1.length

/-! ### Document rows (sqlite `documents` table, app.py lines 27-38)

One row per stored document: `id INTEGER PRIMARY KEY AUTOINCREMENT`,
`user`, `filename`, `filehash TEXT UNIQUE`, `summary`, `content`,
`created_at` (all TEXT). -/

structure DocRow where
  id : Nat
  user : String
  filename : String
  filehash : String
  summary : String
  content : String
  created_at : String
deriving Repr, DecidableEq

/-- Python `str.lower()`, applied character-wise (the source only ever
lowercases for ASCII-insensitive comparison). -/
def pyLower (s : List Char) : List Char := s.map Char.toLower

/-- `p` is an initial segment of `s` (character-wise equality). -/
def startsWith : List Char → List Char → Bool
  | [], _ => true
  | _ :: _, [] => false
  | a :: ps, b :: ss => a == b && startsWith ps ss

/-- Python's `needle in hay` on strings: `needle` occurs as a contiguous
substring of `hay`. -/
def containsSub (needle : List Char) : List Char → Bool
  | [] => needle.isEmpty
  | c :: rest => startsWith needle (c :: rest) || containsSub needle rest

/-! ### Display filter (app.py lines 180-182)

`for i, (...) in enumerate(docs): if search and search.lower() not in
summary.lower(): continue` — a pass over the query result that skips a row
iff the query is non-empty and is not a case-insensitive substring of the
row's summary.  Python's `in` on strings is the contiguous-substring test,
embedded as `List.isInfixOf`. -/

def displayLoop (search : String) : List DocRow → List DocRow
  | [] => []
  | d :: rest =>
    if search ≠ "" ∧ ¬ containsSub (pyLower search.data) (pyLower d.summary.data)
    then displayLoop search rest
    else d :: displayLoop search rest

/-! ### Analytics (app.py lines 194-198)

`len(docs)`, `sum(len(d[4].split()) for d in docs)` (`d[4]` is the `content`
column, i.e. the full extracted text), `len(docs)` — computed over `docs`,
the full query result, not over the display-filtered rows. -/

/-- Python `str.isspace` members relevant to `str.split()` with no
separator: space, tab, newline, carriage return, vertical tab, form feed. -/
def pyIsSpace (c : Char) : Bool :=
  c = ' ' || c = '\t' || c = '\n' || c = '\r' || c = '\x0b' || c = '\x0c'

/-- Python `str.split()` with no argument: the list of maximal runs of
non-whitespace characters (empty strings never appear in the result). -/
def pySplit : List Char → List (List Char)
  | [] => []
  | c :: rest =>
    if pyIsSpace c then pySplit rest
    else
      match pySplit rest, rest with
      | w :: ws, r :: _ => if pyIsSpace r then [c] :: w :: ws else (c :: w) :: ws
      | _, _ => [[c]]

/-- `len(content.split())`. -/
def word_count (s : List Char) : Nat := (pySplit s).length

/-- The three sidebar metrics, in source order: Total PDFs, Total Words,
Total Summaries. -/
def analytics (docs : List DocRow) : Nat × Nat × Nat :=
  (docs.length, (docs.map (fun d => word_count d.content.data)).sum, docs.length)

/-- The display section of the script: given the per-owner query result and
the search box content, the rows that get rendered and the sidebar metrics
(the metrics are computed from `docs`, the unfiltered query result). -/
def render_page (search : String) (docs : List DocRow) :
    List DocRow × (Nat × Nat × Nat) :=
  (displayLoop search docs, analytics docs)

/-! ### Highlight (app.py lines 81-89)

`re.sub(f"({re.escape(query)})", r"<mark>\1</mark>", text, flags=re.IGNORECASE)`
guarded by `if not query: return text`.  Because the pattern is
`re.escape(query)`, every query character is matched literally; `re.sub`
replaces the leftmost case-insensitive occurrences, scanning left to right
without overlap, and `\1` reinstates the matched text with its original case.
The scan is embedded directly: at each position, if the next `|query|`
characters match the query case-insensitively they are wrapped, and the scan
resumes after them; otherwise one character is emitted unchanged. -/

def openMark : List Char := "<mark>".data

def closeMark : List Char := "</mark>".data

/-- Case-insensitive literal match of `q` at the start of `s`
(`re.IGNORECASE` on an escaped pattern). -/
def ciStarts (q s : List Char) : Bool := startsWith (pyLower q) (pyLower s)

/-- The `re.sub` scan for a non-empty literal pattern `q`. -/
def subScan (q : List Char) (t : List Char) : List Char :=
  if hq : q = [] then t
  else
    match t with
    | [] => []
    | c :: rest =>
      if ciStarts q (c :: rest) then
        openMark ++ (c :: rest).take q.length ++ closeMark ++
          subScan q ((c :: rest).drop q.length)
      else c :: subScan q rest
termination_by t.length
decreasing_by
· have hql : 0 < q.length := List.length_pos.mpr hq
  simp [List.length_drop]
  omega
· simp

/-- `highlight(text, query)` from the source. -/
def highlight (text query : List Char) : List Char :=
  if query.isEmpty then text else subScan query text

/-- Modelled from the spec's words (claim-side definition, for the
refinement): the leftmost case-insensitive occurrence of `q` in `t`, as
`(prefix before the match, matched text, remainder after the match)`. -/
def findCI (q : List Char) : List Char → Option (List Char × List Char × List Char)
  | [] => none
  | c :: rest =>
    if ciStarts q (c :: rest) then
      some ([], (c :: rest).take q.length, (c :: rest).drop q.length)
    else
      match findCI q rest with
      | some (pre, m, post) => some (c :: pre, m, post)
      | none => none

theorem startsWith_length {p s : List Char} (h : startsWith p s = true) :
    p.length ≤ s.length := by
  induction p generalizing s with
  | nil => simp
  | cons a ps ih =>
    cases s with
    | nil => simp [startsWith] at h
    | cons b ss =>
      rw [startsWith, Bool.and_eq_true] at h
      simpa using ih h.2

theorem startsWith_take {p s : List Char} (h : startsWith p s = true) :
    s.take p.length = p := by
  induction p generalizing s with
  | nil => simp
  | cons a ps ih =>
    cases s with
    | nil => simp [startsWith] at h
    | cons b ss =>
      rw [startsWith, Bool.and_eq_true] at h
      have hb : b = a := (beq_iff_eq.mp h.1).symm
      simp [hb, ih h.2]

theorem findCI_post_lt (q : List Char) (hq : q ≠ []) :
    ∀ (t pre m post : List Char), findCI q t = some (pre, m, post) →
      post.length < t.length := by
  intro t
  induction t with
  | nil => intro pre m post h; simp [findCI] at h
  | cons c rest ih =>
    intro pre m post h
    simp only [findCI] at h
    by_cases hci : ciStarts q (c :: rest) = true
    · rw [if_pos hci] at h
      simp only [Option.some.injEq, Prod.mk.injEq] at h
      obtain ⟨-, -, hpost⟩ := h
      subst hpost
      have hql : 0 < q.length := List.length_pos.mpr hq
      rw [List.length_drop, List.length_cons]
      omega
    · rw [if_neg hci] at h
      cases hrest : findCI q rest with
      | none => rw [hrest] at h; simp at h
      | some x =>
        obtain ⟨pre', m', post'⟩ := x
        rw [hrest] at h
        simp only [Option.some.injEq, Prod.mk.injEq] at h
        obtain ⟨-, hm, hpost⟩ := h
        subst hm hpost
        exact Nat.lt_trans (ih pre' m' post' hrest) (by simp)

/-- Modelled from the spec's words: the decomposition of `t` into plain text
(`Sum.inl`) and the case-insensitive occurrences of the query (`Sum.inr`),
scanning left to right, occurrences taken leftmost and non-overlapping.  This
is the claim-side reading of "wrapping every case-insensitive occurrence of
the query substring in an emphasis marker". -/
def specSegments (q : List Char) (t : List Char) : List (List Char ⊕ List Char) :=
  if hq : q = [] then [Sum.inl t]
  else
    match hfind : findCI q t with
    | none => [Sum.inl t]
    | some (pre, m, post) => Sum.inl pre :: Sum.inr m :: specSegments q post
termination_by t.length
decreasing_by exact findCI_post_lt q hq t pre m post hfind

/-- Render a segment for display: plain text stays as is, an occurrence is
wrapped in the emphasis marker. -/
def renderSeg : List Char ⊕ List Char → List Char
  | Sum.inl s => s
  | Sum.inr m => openMark ++ m ++ closeMark

/-- The raw text of a segment (no markers). -/
def rawSeg : List Char ⊕ List Char → List Char
  | Sum.inl s => s
  | Sum.inr m => m

/-! ### Content Hasher (`hashlib.sha256`, app.py lines 68-69, 99, 114)

`file_hash` digests the raw file bytes; signup/login digest the encoded
password.  SHA-256 is embedded executably over byte lists, 32-bit words as
`Nat` reduced modulo `2^32`. -/

/-- Truncate to a 32-bit word. -/
def w32 (x : Nat) : Nat := x % 4294967296

/-- Right rotation of a 32-bit word. -/
def rotr (n x : Nat) : Nat := w32 ((x >>> n) ||| (x <<< (32 - n)))

def ssig0 (x : Nat) : Nat := (rotr 7 x) ^^^ (rotr 18 x) ^^^ (x >>> 3)

def ssig1 (x : Nat) : Nat := (rotr 17 x) ^^^ (rotr 19 x) ^^^ (x >>> 10)

/-- The SHA-256 round constants (FIPS 180-4, written in decimal). -/
def shaK : List Nat :=
  [1116352408, 1899447441, 3049323471, 3921009573,
   961987163, 1508970993, 2453635748, 2870763221,
   3624381080, 310598401, 607225278, 1426881987,
   1925078388, 2162078206, 2614888103, 3248222580,
   3835390401, 4022224774, 264347078, 604807628,
   770255983, 1249150122, 1555081692, 1996064986,
   2554220882, 2821834349, 2952996808, 3210313671,
   3336571891, 3584528711, 113926993, 338241895,
   666307205, 773529912, 1294757372, 1396182291,
   1695183700, 1986661051, 2177026350, 2456956037,
   2730485921, 2820302411, 3259730800, 3345764771,
   3516065817, 3600352804, 4094571909, 275423344,
   430227734, 506948616, 659060556, 883997877,
   958139571, 1322822218, 1537002063, 1747873779,
   1955562222, 2024104815, 2227730452, 2361852424,
   2428436474, 2756734187, 3204031479, 3329325298]

/-- The SHA-256 initial hash value (FIPS 180-4, written in decimal). -/
def shaH0 : List Nat :=
  [1779033703, 3144134277, 1013904242, 2773480762,
   1359893119, 2600822924, 528734635, 1541459225]

structure Sha256State where
  a : Nat
  b : Nat
  c : Nat
  d : Nat
  e : Nat
  f : Nat
  g : Nat
  h : Nat

/-- One SHA-256 compression round; `kw` is the pair (schedule word, round
constant). -/
def shaStep (st : Sha256State) (kw : Nat × Nat) : Sha256State :=
  let s1 := (rotr 6 st.e) ^^^ (rotr 11 st.e) ^^^ (rotr 25 st.e)
  let ch := (st.e &&& st.f) ^^^ ((st.e ^^^ 4294967295) &&& st.g)
  let temp1 := w32 (st.h + s1 + ch + kw.2 + kw.1)
  let s0 := (rotr 2 st.a) ^^^ (rotr 13 st.a) ^^^ (rotr 22 st.a)
  let maj := (st.a &&& st.b) ^^^ (st.a &&& st.c) ^^^ (st.b &&& st.c)
  let temp2 := w32 (s0 + maj)
  ⟨w32 (temp1 + temp2), st.a, st.b, st.c, w32 (st.d + temp1), st.e, st.f, st.g⟩

/-- Extend the 16 message words to the 64-word schedule (`n` more words). -/
def extendSchedule : Nat → List Nat → List Nat
  | 0, w => w
  | n + 1, w =>
    let t := w32 (ssig1 (w.getD (w.length - 2) 0) + w.getD (w.length - 7) 0 +
      ssig0 (w.getD (w.length - 15) 0) + w.getD (w.length - 16) 0)
    extendSchedule n (w ++ [t])

/-- Generic slicing of a list into pieces of `n` elements (the last may be
shorter). -/
def chunksOf (n : Nat) (l : List Nat) : List (List Nat) :=
  (List.range' 0 ((l.length + n - 1) / n) n).map (fun i => (l.drop i).take n)

/-- Big-endian word from bytes. -/
def wordOfBytes (bs : List Nat) : Nat := bs.foldl (fun acc b => acc * 256 + b) 0

/-- SHA-256 compression of one 16-word block into the running 8-word hash. -/
def processBlock (hs : List Nat) (block : List Nat) : List Nat :=
  let w := extendSchedule 48 block
  let init : Sha256State := ⟨hs.getD 0 0, hs.getD 1 0, hs.getD 2 0, hs.getD 3 0,
    hs.getD 4 0, hs.getD 5 0, hs.getD 6 0, hs.getD 7 0⟩
  let st := (w.zip shaK).foldl shaStep init
  [w32 (hs.getD 0 0 + st.a), w32 (hs.getD 1 0 + st.b), w32 (hs.getD 2 0 + st.c),
   w32 (hs.getD 3 0 + st.d), w32 (hs.getD 4 0 + st.e), w32 (hs.getD 5 0 + st.f),
   w32 (hs.getD 6 0 + st.g), w32 (hs.getD 7 0 + st.h)]

/-- SHA-256 padding: `0x80`, zeros to 56 mod 64, 8-byte big-endian bit
length. -/
def padMessage (msg : List Nat) : List Nat :=
  let len := msg.length
  let zeros := (120 - ((len + 1) % 64)) % 64
  let lenBytes := (List.range 8).map (fun i => ((len * 8) >>> ((7 - i) * 8)) &&& 255)
  msg ++ [128] ++ List.replicate zeros 0 ++ lenBytes

/-- SHA-256 of a byte list, as the 8 words of the final hash. -/
def sha256 (msg : List Nat) : List Nat :=
  ((chunksOf 64 (padMessage msg)).map (fun b => (chunksOf 4 b).map wordOfBytes)).foldl
    processBlock shaH0

/-- Lowercase hexadecimal rendering of a 32-bit word. -/
def toHex8 (x : Nat) : List Char :=
  (List.range 8).map (fun i => Nat.digitChar ((x >>> ((7 - i) * 4)) &&& 15))

/-- `hashlib.sha256(bytes).hexdigest()`. -/
def hexdigest (msg : List Nat) : String := String.mk (((sha256 msg).map toHex8).flatten)

/-- UTF-8 encoding of one character (Python `str.encode()`). -/
def utf8Bytes (c : Char) : List Nat :=
  let n := c.toNat
  if n < 128 then [n]
  else if n < 2048 then [192 ||| (n >>> 6), 128 ||| (n &&& 63)]
  else if n < 65536 then
    [224 ||| (n >>> 12), 128 ||| ((n >>> 6) &&& 63), 128 ||| (n &&& 63)]
  else
    [240 ||| (n >>> 18), 128 ||| ((n >>> 12) &&& 63),
     128 ||| ((n >>> 6) &&& 63), 128 ||| (n &&& 63)]

/-- Python `s.encode()`. -/
def encodeUtf8 (s : String) : List Nat := (s.data.map utf8Bytes).flatten

/-- `hashlib.sha256(password.encode()).hexdigest()` (app.py lines 99, 114). -/
def sha256hex (s : String) : String := hexdigest (encodeUtf8 s)

/-- `file_hash` (app.py lines 68-69): digest of the raw file bytes. -/
def file_hash (file_bytes : List Nat) : String := hexdigest file_bytes

/-! ### Document Store (app.py lines 24-38, 142-163, 170-177)

The sqlite table is a list of rows plus the AUTOINCREMENT counter.  The
dedup check is `SELECT 1 FROM documents WHERE filehash=?` (no owner in the
WHERE clause: the check is global).  The INSERT is subject to the
`filehash TEXT UNIQUE` constraint: inserting an already-present hash raises
`sqlite3.IntegrityError`, modelled as `Except.error`. -/

structure DocDB where
  rows : List DocRow
  nextId : Nat
deriving Repr, DecidableEq

def emptyDB : DocDB := ⟨[], 1⟩

/-- `SELECT 1 FROM documents WHERE filehash=?` followed by `fetchone()`:
true iff some row (of any owner) carries this hash. -/
def hashPresent (db : DocDB) (h : String) : Bool :=
  db.rows.any (fun r => r.filehash = h)

/-- `INSERT INTO documents ...` under the `filehash TEXT UNIQUE` constraint:
fails (IntegrityError) iff the hash is already present, else appends the row
with the next id. -/
def insertDoc (db : DocDB) (user filename filehash summary content created_at :
    String) : Except Unit DocDB :=
  if hashPresent db filehash then Except.error ()
  else Except.ok
    ⟨db.rows ++ [⟨db.nextId, user, filename, filehash, summary, content, created_at⟩],
     db.nextId + 1⟩

/-- The store states reachable from the fresh table by successful inserts
(the only mutation the source performs). -/
inductive ReachableDB : DocDB → Prop
  | empty : ReachableDB emptyDB
  | insert (db db' : DocDB) (u fn h s c t : String) : ReachableDB db →
      insertDoc db u fn h s c t = Except.ok db' → ReachableDB db'

/-! ### Upload loop (app.py lines 137-165)

For each uploaded file: hash the bytes, run the global dedup check, and on a
hit warn "already exists" and `continue` — before any call to `extract_text`
or `ai_summary`.  Otherwise extract (pypdf may raise on bytes that are not a
PDF — there is no try/except in the loop, so the exception propagates and
aborts the remainder of the batch), summarize, and insert.  `extract` and
`summarize` are the external collaborators, passed as functions; `stamps`
supplies the `datetime.now().isoformat()` value drawn at each insert. -/

inductive UploadOutcome
  | processed (filename : String)
  | duplicate (filename : String)
deriving Repr, DecidableEq

structure UploadFile where
  name : String
  bytes : List Nat
deriving Repr, DecidableEq

/-- Result of a batch run: the final store, the per-file outcomes reported,
whether an uncaught exception aborted the run, and how many times the
extraction and summarization collaborators were invoked. -/
structure BatchResult where
  db : DocDB
  outcomes : List UploadOutcome
  aborted : Bool
  extract_calls : Nat
  summarize_calls : Nat
deriving Repr, DecidableEq

def processUploads (extract : List Nat → Except Unit (List Char))
    (summarize : List Char → List Char) (user : String) :
    List UploadFile → List String → DocDB → BatchResult
  | [], _, db => ⟨db, [], false, 0, 0⟩
  | f :: rest, stamps, db =>
    let h := file_hash f.bytes
    if hashPresent db h then
      let r := processUploads extract summarize user rest stamps db
      ⟨r.db, UploadOutcome.duplicate f.name :: r.outcomes, r.aborted,
        r.extract_calls, r.summarize_calls⟩
    else
      match extract f.bytes with
      | Except.error _ => ⟨db, [], true, 1, 0⟩
      | Except.ok text =>
        let s := ai_summary summarize text
        match insertDoc db user f.name h (String.mk s.2) (String.mk text)
            (stamps.headD "") with
        | Except.error _ => ⟨db, [], true, 1, s.1.length⟩
        | Except.ok db' =>
          let r := processUploads extract summarize user rest stamps.tail db'
          ⟨r.db, UploadOutcome.processed f.name :: r.outcomes, r.aborted,
            1 + r.extract_calls, s.1.length + r.summarize_calls⟩

/-! ### Per-owner retrieval (app.py lines 170-177)

`SELECT ... FROM documents WHERE user=? ORDER BY created_at DESC`.  SQL
prescribes which rows appear and that the sort key is non-increasing; with no
secondary sort key the relative order of rows with equal `created_at` is left
to the engine.  The query's contract is therefore the relation below: a result
is admissible iff it is a permutation of the owner's rows that is sorted by
`created_at` descending. -/

def isQueryResult (db : DocDB) (owner : String) (res : List DocRow) : Prop :=
  res.Perm (db.rows.filter (fun r => r.user = owner)) ∧
  res.Pairwise (fun r1 r2 => r2.created_at ≤ r1.created_at)

/-! ### User store (TinyDB `users.json`, app.py lines 97-116)

Records `{username, password}`; `USER_DB.get(cond)` returns the first
matching record or `None`; signup refuses an existing username and otherwise
inserts the record with the password's SHA-256 hex digest. -/

structure UserRec where
  username : String
  password : String
deriving Repr, DecidableEq

/-- The login check (app.py line 99): first record whose username matches and
whose stored password equals the digest of the typed password. -/
def validate (db : List UserRec) (username password : String) : Option UserRec :=
  db.find? (fun r => r.username == username && r.password == sha256hex password)

/-- Signup (app.py lines 107-116): `(new user store, whether an account was
created)`. -/
def signup (db : List UserRec) (username password : String) :
    List UserRec × Bool :=
  if (db.find? (fun r => r.username == username)).isSome then (db, false)
  else (db ++ [⟨username, sha256hex password⟩], true)

/-- Extraction oracle used for the batch-abort counterexample: raises (as
`pypdf.PdfReader` does) on the byte sequence `[0]`, parses anything else. -/
def badBytesExtract : List Nat → Except Unit (List Char) :=
  fun b => if b = [0] then Except.error () else Except.ok "text".data

/-- Concrete store used to instantiate the dedup and uniqueness claims. -/
def seededDB : DocDB :=
  ⟨[⟨1, "bob", "a.pdf", file_hash [1, 2], "s", "c", "2024-01-01T00:00:00"⟩], 2⟩

/-- Two rows of one owner with equal `created_at`, distinct ids. -/
def tieDoc1 : DocRow :=
  ⟨1, "alice", "a.pdf", "h1", "s1", "c1", "2024-01-01T00:00:00"⟩

/-- Two rows of one owner with equal `created_at`, distinct ids. -/
def tieDoc2 : DocRow :=
  ⟨2, "alice", "b.pdf", "h2", "s2", "c2", "2024-01-01T00:00:00"⟩

def tieDB : DocDB := ⟨[tieDoc1, tieDoc2], 3⟩

/-- Concrete row used to instantiate the search-filter claims (summary taken
from the spec's test data). -/
def catDoc : DocRow :=
  ⟨1, "alice", "cats.pdf", "hash-cats", "cats are great",
   "cats are great indeed", "2024-01-01T00:00:00"⟩

/-- Concrete row used to instantiate the search-filter claims (summary taken
from the spec's test data). -/
def dogDoc : DocRow :=
  ⟨2, "alice", "dogs.pdf", "hash-dogs", "dogs are loyal",
   "dogs are loyal too", "2024-01-02T00:00:00"⟩

end PDFVault

namespace PDFVault

theorem foldl_append_singleton (f : List Char → List Char) :
    ∀ (l : List (List Char)) (acc : List (List Char)),
      l.foldl (fun a c => a ++ [f c]) acc = acc ++ l.map f := by
  intro l
  induction l with
  | nil => intro acc; simp
  | cons x xs ih => intro acc; simp [List.foldl_cons, ih]

example : chunk_text "abcde".data 2 = [['a','b'], ['c','d'], ['e']] := by decide

example : chunk_text [] 2000 = [] := by decide

/-- Joining the first `n` slices of width `M` recovers the first `n*M`
characters. -/
theorem join_chunk_slices (M : Nat) :
    ∀ (n : Nat) (s : List Char),
      (((List.range' 0 n M).map (fun i => (s.drop i).take M)).flatten : List Char) =
        s.take (n * M) := by
  intro n
  induction n with
  | zero => intro s; simp
  | succ n ih =>
    intro s
    rw [List.range'_succ]
    have hshift : (List.range' (0 + M) n M).map (fun i => (s.drop i).take M) =
        (List.range' 0 n M).map (fun i => ((s.drop M).drop i).take M) := by
      have h1 : List.range' (0 + M) n M = (List.range' 0 n M).map (fun x => M + x) := by
        rw [List.map_add_range']
        norm_num
      rw [h1, List.map_map]
      apply List.map_congr_left
      intro a _
      simp [List.drop_drop]
    rw [List.map_cons, List.flatten_cons, hshift, ih (s.drop M)]
    rw [List.drop_zero, Nat.succ_mul, Nat.add_comm (n * M) M, List.take_add]

/-- For `M > 0`, the number of slices `⌈L/M⌉` covers all of `L`. -/
theorem ceil_div_mul_ge (L M : Nat) (hM : 0 < M) : L ≤ (L + M - 1) / M * M := by
  have hmod := Nat.div_add_mod (L + M - 1) M
  have hlt : (L + M - 1) % M < M := Nat.mod_lt _ hM
  rw [Nat.mul_comm]
  omega

/-- Claim C2: Chunker contract.  For every text `T` and maximum chunk length
`M > 0`, `chunk_text T M` is an ordered sequence of non-overlapping substrings
of `T`, each of length at most `M`, whose in-order concatenation is exactly
`T`; empty text yields zero chunks and non-empty text of length at most `M`
yields exactly the single chunk `[T]`. -/
theorem C2_chunker_contract (text : List Char) (M : Nat) (hM : 0 < M) :
    (chunk_text text M).flatten = text ∧
    (∀ c ∈ chunk_text text M, c.length ≤ M) ∧
    (text = [] → chunk_text text M = []) ∧
    (text ≠ [] → text.length ≤ M → chunk_text text M = [text]) := by
  refine ⟨?_, ?_, ?_, ?_⟩
  · rw [chunk_text, join_chunk_slices]
    exact List.take_of_length_le (ceil_div_mul_ge text.length M hM)
  · intro c hc
    rw [chunk_text, List.mem_map] at hc
    obtain ⟨i, _, rfl⟩ := hc
    rw [List.length_take]
    exact min_le_left _ _
  · intro h
    subst h
    have h0 : (M - 1) / M = 0 := Nat.div_eq_of_lt (by omega)
    simp [chunk_text, h0]
  · intro hne hlen
    have hpos : 0 < text.length := List.length_pos.mpr hne
    have hdiv : (text.length + M - 1) / M = 1 :=
      Nat.div_eq_of_lt_le (by omega) (by omega)
    rw [chunk_text, hdiv]
    simp [List.range'_one, List.take_of_length_le hlen]

theorem chunk_text_nil : chunk_text [] = [] := by decide

/-- Claim C3: Summarization Orchestrator cap and composition.  For every
summarizer and every input text, `ai_summary` invokes the summarizer exactly
once per chunk for the first `min (number of chunks) 5` chunks (in particular
exactly 5 times and never more when the text needs more than 5 chunks), and
returns the per-chunk summaries joined with a single space in original chunk
order; on empty input it makes zero calls and returns the empty summary. -/
theorem C3_orchestrator_cap (summarize : List Char → List Char) (text : List Char) :
    ai_summary_calls summarize text = min (chunk_text text).length 5 ∧
    ((chunk_text text).length > 5 → ai_summary_calls summarize text = 5) ∧
    (ai_summary summarize text).1 = ((chunk_text text).take 5).map summarize ∧
    (ai_summary summarize text).2 = joinSpace (((chunk_text text).take 5).map summarize) ∧
    (text = [] → ai_summary_calls summarize text = 0 ∧ (ai_summary summarize text).2 = []) := by
  have hfold : (ai_summary summarize text).1 = ((chunk_text text).take 5).map summarize := by
    rw [ai_summary]
    exact foldl_append_singleton summarize _ []
  have hcalls : ai_summary_calls summarize text = min (chunk_text text).length 5 := by
    rw [ai_summary_calls, hfold, List.length_map, List.length_take, Nat.min_comm]
  refine ⟨hcalls, ?_, hfold, ?_, ?_⟩
  · intro hgt
    rw [hcalls]
    omega
  · rw [ai_summary]
    rw [ai_summary] at hfold
    simp only at hfold
    rw [hfold]
  · intro h
    subst h
    rw [hcalls, chunk_text_nil]
    refine ⟨rfl, ?_⟩
    rw [ai_summary, chunk_text_nil]
    rfl

/-- Instantiation of claim C3 at a concrete summarizer and text. -/
theorem C3_orchestrator_cap_witness :
    ai_summary_calls (fun _ => ['s']) "hi".data = min (chunk_text "hi".data).length 5 ∧
    ((chunk_text "hi".data).length > 5 → ai_summary_calls (fun _ => ['s']) "hi".data = 5) ∧
    (ai_summary (fun _ => ['s']) "hi".data).1 =
      ((chunk_text "hi".data).take 5).map (fun _ => ['s']) ∧
    (ai_summary (fun _ => ['s']) "hi".data).2 =
      joinSpace (((chunk_text "hi".data).take 5).map (fun _ => ['s'])) ∧
    ("hi".data = [] → ai_summary_calls (fun _ => ['s']) "hi".data = 0 ∧
      (ai_summary (fun _ => ['s']) "hi".data).2 = []) :=
  C3_orchestrator_cap (fun _ => ['s']) "hi".data

/-- Instantiation of claim C2 at a concrete text and chunk width. -/
theorem C2_chunker_contract_witness :
    (chunk_text "abcde".data 2).flatten = "abcde".data ∧
    (∀ c ∈ chunk_text "abcde".data 2, c.length ≤ 2) ∧
    ("abcde".data = [] → chunk_text "abcde".data 2 = []) ∧
    ("abcde".data ≠ [] → ("abcde".data).length ≤ 2 →
      chunk_text "abcde".data 2 = ["abcde".data]) :=
  C2_chunker_contract "abcde".data 2 (by decide)

/-- The per-row keep condition of the display loop, as a Boolean
predicate. -/
def keepRow (search : String) (d : DocRow) : Bool :=
  containsSub (pyLower search.data) (pyLower d.summary.data)

theorem displayLoop_empty_query (docs : List DocRow) : displayLoop "" docs = docs := by
  induction docs with
  | nil => rfl
  | cons d rest ih => simp [displayLoop, ih]

theorem displayLoop_eq_filter (search : String) (hne : search ≠ "") (docs : List DocRow) :
    displayLoop search docs = docs.filter (keepRow search) := by
  induction docs with
  | nil => rfl
  | cons d rest ih =>
    simp only [displayLoop]
    by_cases hk : containsSub (pyLower search.data) (pyLower d.summary.data) = true
    · rw [if_neg (by simp [hk]), List.filter_cons_of_pos (by simp [keepRow, hk]), ih]
    · rw [if_pos ⟨hne, by simpa using hk⟩,
        List.filter_cons_of_neg (by simp [keepRow, hk]), ih]

/-- Claim C7: Search filter correctness.  For every ordered sequence of
documents and every query: a non-empty query keeps exactly the documents
whose summary contains the query as a case-insensitive substring, in input
order (the result is the corresponding `List.filter`, hence a sublist of the
input); an empty query passes every document through unchanged. -/
theorem C7_search_filter (search : String) (docs : List DocRow) :
    (search = "" → displayLoop search docs = docs) ∧
    (search ≠ "" → displayLoop search docs = docs.filter (keepRow search)) ∧
    (search ≠ "" → ∀ d, d ∈ displayLoop search docs ↔
      d ∈ docs ∧ containsSub (pyLower search.data) (pyLower d.summary.data)) ∧
    (displayLoop search docs).Sublist docs := by
  refine ⟨?_, fun hne => displayLoop_eq_filter search hne docs, ?_, ?_⟩
  · intro h; subst h; exact displayLoop_empty_query docs
  · intro hne d
    rw [displayLoop_eq_filter search hne, List.mem_filter, keepRow]
  · by_cases hne : search = ""
    · subst hne; rw [displayLoop_empty_query]
    · rw [displayLoop_eq_filter search hne]; exact List.filter_sublist docs

/-- Instantiation of claim C7 at the spec's own test data: summaries
`"cats are great"`, `"dogs are loyal"`, query `"CAT"`. -/
theorem C7_search_filter_witness :
    ("CAT" = "" → displayLoop "CAT" [catDoc, dogDoc] = [catDoc, dogDoc]) ∧
    ("CAT" ≠ "" → displayLoop "CAT" [catDoc, dogDoc] =
      [catDoc, dogDoc].filter (keepRow "CAT")) ∧
    ("CAT" ≠ "" → ∀ d, d ∈ displayLoop "CAT" [catDoc, dogDoc] ↔
      d ∈ [catDoc, dogDoc] ∧
        containsSub (pyLower "CAT".data) (pyLower d.summary.data)) ∧
    (displayLoop "CAT" [catDoc, dogDoc]).Sublist [catDoc, dogDoc] :=
  C7_search_filter "CAT" [catDoc, dogDoc]

theorem findCI_decomp (q : List Char) :
    ∀ (t pre m post : List Char), findCI q t = some (pre, m, post) →
      pre ++ m ++ post = t ∧ pyLower m = pyLower q := by
  intro t
  induction t with
  | nil => intro pre m post h; simp [findCI] at h
  | cons c rest ih =>
    intro pre m post h
    simp only [findCI] at h
    by_cases hci : ciStarts q (c :: rest) = true
    · rw [if_pos hci] at h
      simp only [Option.some.injEq, Prod.mk.injEq] at h
      obtain ⟨hpre, hm, hpost⟩ := h
      subst hpre hm hpost
      constructor
      · simp [List.take_append_drop]
      · rw [ciStarts] at hci
        have := startsWith_take hci
        rw [pyLower, pyLower, List.length_map] at this
        rw [pyLower, pyLower, List.map_take, this]
    · rw [if_neg hci] at h
      cases hrest : findCI q rest with
      | none => rw [hrest] at h; simp at h
      | some x =>
        obtain ⟨pre', m', post'⟩ := x
        rw [hrest] at h
        simp only [Option.some.injEq, Prod.mk.injEq] at h
        obtain ⟨hpre, hm, hpost⟩ := h
        subst hpre hm hpost
        obtain ⟨h1, h2⟩ := ih pre' m' post' hrest
        exact ⟨by rw [List.cons_append, List.cons_append, h1], h2⟩

theorem findCI_none_of_no_occurrence (q : List Char) :
    ∀ t : List Char, containsSub (pyLower q) (pyLower t) = false →
      findCI q t = none := by
  intro t
  induction t with
  | nil => intro _; rfl
  | cons c rest ih =>
    intro h
    have h' : containsSub (pyLower q) (Char.toLower c :: pyLower rest) = false := by
      simpa [pyLower] using h
    rw [containsSub, Bool.or_eq_false_iff] at h'
    have hci : ciStarts q (c :: rest) = false := by
      rw [ciStarts]
      simpa [pyLower] using h'.1
    simp only [findCI, hci, Bool.false_eq_true, if_false]
    rw [ih (by simpa [pyLower] using h'.2)]

theorem subScan_nil (q : List Char) : subScan q [] = [] := by
  rw [subScan]
  split <;> rfl

theorem subScan_hit (q : List Char) (hq : q ≠ []) (c : Char) (rest : List Char)
    (hci : ciStarts q (c :: rest) = true) :
    subScan q (c :: rest) = openMark ++ (c :: rest).take q.length ++ closeMark ++
      subScan q ((c :: rest).drop q.length) := by
  rw [subScan]
  rw [dif_neg hq]
  simp only [hci, if_true]

theorem subScan_skip (q : List Char) (hq : q ≠ []) (c : Char) (rest : List Char)
    (hci : ciStarts q (c :: rest) = false) :
    subScan q (c :: rest) = c :: subScan q rest := by
  rw [subScan]
  rw [dif_neg hq]
  simp only [hci, Bool.false_eq_true, if_false]

theorem specSegments_none (q t : List Char) (hq : q ≠ [])
    (h : findCI q t = none) : specSegments q t = [Sum.inl t] := by
  rw [specSegments]
  rw [dif_neg hq]
  split
  · rfl
  · rename_i pre m post heq
    rw [h] at heq
    cases heq

theorem specSegments_some (q t pre m post : List Char) (hq : q ≠ [])
    (h : findCI q t = some (pre, m, post)) :
    specSegments q t = Sum.inl pre :: Sum.inr m :: specSegments q post := by
  rw [specSegments]
  rw [dif_neg hq]
  split
  · rename_i heq
    rw [h] at heq
    cases heq
  · rename_i pre' m' post' heq
    rw [h] at heq
    simp only [Option.some.injEq, Prod.mk.injEq] at heq
    obtain ⟨h1, h2, h3⟩ := heq
    subst h1 h2 h3
    rfl

theorem specSegments_raw (q : List Char) (hq : q ≠ []) :
    ∀ t : List Char, ((specSegments q t).map rawSeg).flatten = t := by
  have key : ∀ (n : Nat) (t : List Char), t.length ≤ n →
      ((specSegments q t).map rawSeg).flatten = t := by
    intro n
    induction n with
    | zero =>
      intro t ht
      have h0 : t = [] := List.eq_nil_of_length_eq_zero (Nat.le_zero.mp ht)
      subst h0
      rw [specSegments_none q [] hq rfl]
      simp [rawSeg]
    | succ n ih =>
      intro t ht
      cases hfind : findCI q t with
      | none =>
        rw [specSegments_none q t hq hfind]
        simp [rawSeg]
      | some x =>
        obtain ⟨pre, m, post⟩ := x
        have hlt := findCI_post_lt q hq t pre m post hfind
        have hdec := findCI_decomp q t pre m post hfind
        rw [specSegments_some q t pre m post hq hfind]
        simp only [List.map_cons, List.flatten_cons, rawSeg]
        rw [ih post (by omega)]
        rw [← List.append_assoc]
        exact hdec.1
  intro t
  exact key t.length t (Nat.le_refl _)

theorem specSegments_matches (q : List Char) (hq : q ≠ []) :
    ∀ (t m : List Char), Sum.inr m ∈ specSegments q t → pyLower m = pyLower q := by
  have key : ∀ (n : Nat) (t : List Char), t.length ≤ n → ∀ m : List Char,
      Sum.inr m ∈ specSegments q t → pyLower m = pyLower q := by
    intro n
    induction n with
    | zero =>
      intro t ht m hm
      have h0 : t = [] := List.eq_nil_of_length_eq_zero (Nat.le_zero.mp ht)
      subst h0
      rw [specSegments_none q [] hq rfl] at hm
      simp at hm
    | succ n ih =>
      intro t ht m hm
      cases hfind : findCI q t with
      | none =>
        rw [specSegments_none q t hq hfind] at hm
        simp at hm
      | some x =>
        obtain ⟨pre, mm, post⟩ := x
        have hlt := findCI_post_lt q hq t pre mm post hfind
        have hdec := findCI_decomp q t pre mm post hfind
        rw [specSegments_some q t pre mm post hq hfind] at hm
        simp only [List.mem_cons] at hm
        rcases hm with h | h | h
        · exact absurd h (by simp)
        · have hmm : m = mm := by simpa using h
          subst hmm
          exact hdec.2
        · exact ih post (by omega) m h
  intro t
  exact key t.length t (Nat.le_refl _)

theorem subScan_eq_segments (q : List Char) (hq : q ≠ []) :
    ∀ t : List Char, subScan q t = ((specSegments q t).map renderSeg).flatten := by
  have key : ∀ (n : Nat) (t : List Char), t.length ≤ n →
      subScan q t = ((specSegments q t).map renderSeg).flatten := by
    intro n
    induction n with
    | zero =>
      intro t ht
      have h0 : t = [] := List.eq_nil_of_length_eq_zero (Nat.le_zero.mp ht)
      subst h0
      rw [subScan_nil, specSegments_none q [] hq rfl]
      simp [renderSeg]
    | succ n ih =>
      intro t ht
      cases t with
      | nil =>
        rw [subScan_nil, specSegments_none q [] hq rfl]
        simp [renderSeg]
      | cons c rest =>
        by_cases hci : ciStarts q (c :: rest) = true
        · have hfind : findCI q (c :: rest) =
              some ([], (c :: rest).take q.length, (c :: rest).drop q.length) := by
            simp only [findCI, hci, if_true]
          have hql : 0 < q.length := List.length_pos.mpr hq
          rw [subScan_hit q hq c rest hci,
            specSegments_some q (c :: rest) _ _ _ hq hfind]
          simp only [List.map_cons, List.flatten_cons, renderSeg]
          rw [ih ((c :: rest).drop q.length)
            (by rw [List.length_drop, List.length_cons]; simp at ht; omega)]
          simp
        · have hci' : ciStarts q (c :: rest) = false := by
            simpa using hci
          cases hrest : findCI q rest with
          | none =>
            have hfind : findCI q (c :: rest) = none := by
              simp only [findCI, hci', Bool.false_eq_true, if_false, hrest]
            have hsub : subScan q rest = rest := by
              rw [ih rest (by simp at ht; omega), specSegments_none q rest hq hrest]
              simp [renderSeg]
            rw [subScan_skip q hq c rest hci', specSegments_none q (c :: rest) hq hfind]
            rw [hsub]
            simp [renderSeg]
          | some x =>
            obtain ⟨pre, m, post⟩ := x
            have hfind : findCI q (c :: rest) = some (c :: pre, m, post) := by
              simp only [findCI, hci', Bool.false_eq_true, if_false, hrest]
            have hsub : subScan q rest =
                pre ++ ((openMark ++ m ++ closeMark) ++
                  ((specSegments q post).map renderSeg).flatten) := by
              rw [ih rest (by simp at ht; omega),
                specSegments_some q rest pre m post hq hrest]
              simp [renderSeg]
            rw [subScan_skip q hq c rest hci',
              specSegments_some q (c :: rest) _ _ _ hq hfind]
            simp only [List.map_cons, List.flatten_cons, renderSeg]
            rw [hsub]
            simp
  intro t
  exact key t.length t (Nat.le_refl _)

/-- Claim C8: Highlight correctness.  An empty query returns the text
unchanged with no annotation.  For a non-empty query, `highlight` produces
exactly the render of the decomposition of the text into plain parts and the
leftmost non-overlapping case-insensitive occurrences of the query: each
occurrence is wrapped in `<mark>`/`</mark>`, the raw characters of the
decomposition (matched text in its original case included) are exactly the
input text, every wrapped part equals the query up to case, and a text with
no case-insensitive occurrence of the query is returned unchanged.  Query
characters are matched literally throughout (the source escapes the query
with `re.escape`). -/
theorem C8_highlight_correct (text query : List Char) :
    (query = [] → highlight text query = text) ∧
    (query ≠ [] →
      highlight text query = ((specSegments query text).map renderSeg).flatten ∧
      ((specSegments query text).map rawSeg).flatten = text ∧
      (∀ m, Sum.inr m ∈ specSegments query text → pyLower m = pyLower query) ∧
      (containsSub (pyLower query) (pyLower text) = false →
        highlight text query = text)) := by
  constructor
  · intro h
    subst h
    rw [highlight]
    simp
  · intro hq
    have hne : ¬ query.isEmpty := by
      cases query with
      | nil => exact absurd rfl hq
      | cons a l => simp [List.isEmpty]
    refine ⟨?_, specSegments_raw query hq text, specSegments_matches query hq text, ?_⟩
    · rw [highlight, if_neg hne]
      exact subScan_eq_segments query hq text
    · intro hno
      rw [highlight, if_neg hne]
      rw [subScan_eq_segments query hq text,
        specSegments_none query text hq (findCI_none_of_no_occurrence query text hno)]
      simp [renderSeg]

/-- Instantiation of claim C8 at the spec's own test data: summary
`"the cat sat"`, query `"cat"`. -/
theorem C8_highlight_correct_witness :
    ("cat".data = [] → highlight "the cat sat".data "cat".data = "the cat sat".data) ∧
    ("cat".data ≠ [] →
      highlight "the cat sat".data "cat".data =
        ((specSegments "cat".data "the cat sat".data).map renderSeg).flatten ∧
      ((specSegments "cat".data "the cat sat".data).map rawSeg).flatten =
        "the cat sat".data ∧
      (∀ m, Sum.inr m ∈ specSegments "cat".data "the cat sat".data →
        pyLower m = pyLower "cat".data) ∧
      (containsSub (pyLower "cat".data) (pyLower "the cat sat".data) = false →
        highlight "the cat sat".data "cat".data = "the cat sat".data)) :=
  C8_highlight_correct "the cat sat".data "cat".data

/-- The upload loop's dedup path: a hash hit reports a duplicate and
returns before extraction, summarization or insert. -/
theorem processUploads_dup (extract : List Nat → Except Unit (List Char))
    (summarize : List Char → List Char) (user : String) (f : UploadFile)
    (stamps : List String) (db : DocDB)
    (hdup : hashPresent db (file_hash f.bytes) = true) :
    processUploads extract summarize user [f] stamps db =
      ⟨db, [UploadOutcome.duplicate f.name], false, 0, 0⟩ := by
  simp [processUploads, hdup]

/-- Claim C1: Dedup idempotence of ingestion.  For every file whose content
hash is already present in the store, uploading it again stores no new row
(the store is unchanged), is reported as a duplicate, and invokes neither the
text extractor nor the summarizer (the dedup check runs before any
extraction/summarization work). -/
theorem C1_dedup_idempotent (extract : List Nat → Except Unit (List Char))
    (summarize : List Char → List Char) (user : String) (f : UploadFile)
    (stamps : List String) (db : DocDB)
    (hdup : hashPresent db (file_hash f.bytes) = true) :
    processUploads extract summarize user [f] stamps db =
      ⟨db, [UploadOutcome.duplicate f.name], false, 0, 0⟩ :=
  processUploads_dup extract summarize user f stamps db hdup

/-- Instantiation of claim C1: re-uploading the bytes `[1, 2]` already held
by `seededDB`. -/
theorem C1_dedup_idempotent_witness :
    hashPresent seededDB (file_hash (⟨"a2.pdf", [1, 2]⟩ : UploadFile).bytes) = true ∧
    processUploads (fun _ => Except.ok []) (fun c => c) "alice"
      [⟨"a2.pdf", [1, 2]⟩] [] seededDB =
      ⟨seededDB, [UploadOutcome.duplicate "a2.pdf"], false, 0, 0⟩ :=
  ⟨by simp [hashPresent, seededDB],
   C1_dedup_idempotent (fun _ => Except.ok []) (fun c => c) "alice"
     ⟨"a2.pdf", [1, 2]⟩ [] seededDB (by simp [hashPresent, seededDB])⟩

/-- Claim C4: Global content-hash uniqueness.  In every reachable store state
no two rows share a `filehash` (regardless of owner); an upload of content
whose hash is held by a different user's row is rejected as a duplicate
without creating a row for the uploader; and an insert of an already-present
hash fails with the constraint violation. -/
theorem C4_hash_uniqueness :
    (∀ db : DocDB, ReachableDB db →
      db.rows.Pairwise (fun r1 r2 => r1.filehash ≠ r2.filehash)) ∧
    (∀ (extract : List Nat → Except Unit (List Char))
      (summarize : List Char → List Char) (u : String) (f : UploadFile)
      (stamps : List String) (db : DocDB),
      (∃ r ∈ db.rows, r.filehash = file_hash f.bytes ∧ r.user ≠ u) →
      processUploads extract summarize u [f] stamps db =
        ⟨db, [UploadOutcome.duplicate f.name], false, 0, 0⟩) ∧
    (∀ (db : DocDB) (u fn h s c t : String),
      (∃ r ∈ db.rows, r.filehash = h) →
      insertDoc db u fn h s c t = Except.error ()) := by
  refine ⟨?_, ?_, ?_⟩
  · intro db hr
    induction hr with
    | empty => simp [emptyDB]
    | insert db db' u fn h s c t hr hins ih =>
      rw [insertDoc] at hins
      by_cases hp : hashPresent db h = true
      · rw [if_pos hp] at hins
        cases hins
      · rw [if_neg hp] at hins
        injection hins with h'
        subst h'
        rw [List.pairwise_append]
        refine ⟨ih, by simp, ?_⟩
        intro a ha b hb
        simp only [List.mem_singleton] at hb
        subst hb
        intro hcontra
        exact hp (List.any_eq_true.mpr ⟨a, ha, by simp [hcontra]⟩)
  · intro extract summarize u f stamps db hex
    obtain ⟨r, hr, hh, -⟩ := hex
    exact processUploads_dup extract summarize u f stamps db
      (List.any_eq_true.mpr ⟨r, hr, by simp [hh]⟩)
  · intro db u fn h s c t hex
    obtain ⟨r, hr, hh⟩ := hex
    have hp : hashPresent db h = true := List.any_eq_true.mpr ⟨r, hr, by simp [hh]⟩
    rw [insertDoc, if_pos hp]

/-- Instantiation of claim C4: the fresh store's invariant, a cross-user
duplicate rejection, and a failing insert of a present hash. -/
theorem C4_hash_uniqueness_witness :
    emptyDB.rows.Pairwise (fun r1 r2 => r1.filehash ≠ r2.filehash) ∧
    processUploads (fun _ => Except.ok []) (fun c => c) "alice"
      [⟨"copy.pdf", [1, 2]⟩] [] seededDB =
      ⟨seededDB, [UploadOutcome.duplicate "copy.pdf"], false, 0, 0⟩ ∧
    insertDoc seededDB "alice" "x.pdf" (file_hash [1, 2]) "s" "c" "t" =
      Except.error () :=
  ⟨C4_hash_uniqueness.1 emptyDB ReachableDB.empty,
   C4_hash_uniqueness.2.1 (fun _ => Except.ok []) (fun c => c) "alice"
     ⟨"copy.pdf", [1, 2]⟩ [] seededDB
     ⟨⟨1, "bob", "a.pdf", file_hash [1, 2], "s", "c", "2024-01-01T00:00:00"⟩,
       by simp [seededDB], rfl, by decide⟩,
   C4_hash_uniqueness.2.2 seededDB "alice" "x.pdf" (file_hash [1, 2]) "s" "c" "t"
     ⟨⟨1, "bob", "a.pdf", file_hash [1, 2], "s", "c", "2024-01-01T00:00:00"⟩,
       by simp [seededDB], rfl⟩⟩

/-- Claim C5 (evidence of the code bug): in a two-file batch whose first
file's bytes cannot be parsed as a PDF, the uncaught extraction exception
aborts the run — no per-file outcome is reported and the second (valid) file
is never processed — although that second file on its own processes fine. -/
theorem C5_extraction_failure_aborts_batch :
    processUploads badBytesExtract (fun c => c) "alice"
      [⟨"bad.pdf", [0]⟩, ⟨"good.pdf", [1]⟩] ["t1", "t2"] emptyDB =
      ⟨emptyDB, [], true, 1, 0⟩ ∧
    (processUploads badBytesExtract (fun c => c) "alice"
      [⟨"good.pdf", [1]⟩] ["t1"] emptyDB).outcomes =
      [UploadOutcome.processed "good.pdf"] ∧
    (processUploads badBytesExtract (fun c => c) "alice"
      [⟨"good.pdf", [1]⟩] ["t1"] emptyDB).aborted = false :=
  ⟨rfl, rfl, rfl⟩

/-- Claim C6 (evidence of the code bug): with two same-owner rows sharing one
`created_at`, both relative orders satisfy the retrieval query's contract
(`WHERE user=? ORDER BY created_at DESC` with no secondary key), so the
relative order of equal-timestamp rows is not determined — in particular it
is not guaranteed to be row id descending. -/
theorem C6_tie_order_not_determined :
    isQueryResult tieDB "alice" [tieDoc1, tieDoc2] ∧
    isQueryResult tieDB "alice" [tieDoc2, tieDoc1] ∧
    [tieDoc1, tieDoc2] ≠ [tieDoc2, tieDoc1] := by
  have hf : tieDB.rows.filter (fun r => r.user = "alice") = [tieDoc1, tieDoc2] := by
    decide
  have hle : tieDoc2.created_at ≤ tieDoc1.created_at := le_of_eq rfl
  have hle' : tieDoc1.created_at ≤ tieDoc2.created_at := le_of_eq rfl
  refine ⟨⟨?_, ?_⟩, ⟨?_, ?_⟩, by decide⟩
  · rw [hf]
  · exact List.Pairwise.cons (fun b hb => by rw [List.mem_singleton] at hb; subst hb; exact hle)
      (List.Pairwise.cons (fun b hb => by simp at hb) List.Pairwise.nil)
  · rw [hf]
    exact List.Perm.swap tieDoc1 tieDoc2 []
  · exact List.Pairwise.cons (fun b hb => by rw [List.mem_singleton] at hb; subst hb; exact hle')
      (List.Pairwise.cons (fun b hb => by simp at hb) List.Pairwise.nil)

/-- Claim C10: authentication digest behaviour.  `validate` succeeds iff some
stored record carries the given username and the SHA-256 hex digest of the
given password; signup of a fresh username appends exactly the record
`{username, sha256hex password}` and reports success; signup of an existing
username changes nothing and reports failure; and two fresh accounts created
with the same password store identical digests (the digest is unsalted: it
depends on the password alone). -/
theorem C10_auth_digest (db : List UserRec) (u p : String) :
    ((validate db u p).isSome ↔
      ∃ r ∈ db, r.username = u ∧ r.password = sha256hex p) ∧
    ((db.find? (fun r => r.username == u)).isSome = false →
      signup db u p = (db ++ [⟨u, sha256hex p⟩], true)) ∧
    ((db.find? (fun r => r.username == u)).isSome = true →
      signup db u p = (db, false)) ∧
    (∀ u2 : String, (signup [] u p).1.map (fun r => r.password) =
      (signup [] u2 p).1.map (fun r => r.password)) := by
  refine ⟨?_, ?_, ?_, ?_⟩
  · rw [validate, List.find?_isSome]
    constructor
    · intro hex
      obtain ⟨r, hr, hp⟩ := hex
      rw [Bool.and_eq_true, beq_iff_eq, beq_iff_eq] at hp
      exact ⟨r, hr, hp⟩
    · intro hex
      obtain ⟨r, hr, h1, h2⟩ := hex
      exact ⟨r, hr, by rw [Bool.and_eq_true, beq_iff_eq, beq_iff_eq]; exact ⟨h1, h2⟩⟩
  · intro h
    rw [signup, if_neg (by simp [h])]
  · intro h
    rw [signup, if_pos h]
  · intro u2
    simp [signup]

/-- Instantiation of claim C10 at a one-record user store. -/
theorem C10_auth_digest_witness :
    ((validate [⟨"alice", sha256hex "pw1"⟩] "alice" "pw1").isSome ↔
      ∃ r ∈ [(⟨"alice", sha256hex "pw1"⟩ : UserRec)],
        r.username = "alice" ∧ r.password = sha256hex "pw1") ∧
    (([(⟨"alice", sha256hex "pw1"⟩ : UserRec)].find?
        (fun r => r.username == "alice")).isSome = false →
      signup [⟨"alice", sha256hex "pw1"⟩] "alice" "pw1" =
        ([⟨"alice", sha256hex "pw1"⟩] ++ [⟨"alice", sha256hex "pw1"⟩], true)) ∧
    (([(⟨"alice", sha256hex "pw1"⟩ : UserRec)].find?
        (fun r => r.username == "alice")).isSome = true →
      signup [⟨"alice", sha256hex "pw1"⟩] "alice" "pw1" =
        ([⟨"alice", sha256hex "pw1"⟩], false)) ∧
    (∀ u2 : String, (signup [] "alice" "pw1").1.map (fun r => r.password) =
      (signup [] u2 "pw1").1.map (fun r => r.password)) :=
  C10_auth_digest [⟨"alice", sha256hex "pw1"⟩] "alice" "pw1"

/-- Claim C9: Analytics over the unfiltered list.  The sidebar metrics are a
pure function of the full per-owner query result: they do not change when a
search query is active, the document count is the list length, the total word
count is the sum over each document's `content` split on whitespace, and the
summary count equals the document count. -/
theorem C9_analytics_unfiltered (search : String) (docs : List DocRow) :
    (render_page search docs).2 = analytics docs ∧
    (render_page search docs).2 = (render_page "" docs).2 ∧
    (analytics docs).1 = docs.length ∧
    (analytics docs).2.1 = (docs.map (fun d => (pySplit d.content.data).length)).sum ∧
    (analytics docs).2.2 = (analytics docs).1 :=
  ⟨rfl, rfl, rfl, rfl, rfl⟩

end PDFVault
